import Mathlib

/-!
# Verification of the BM25 search index (`src/utils/indexer.ts`)

Shallow embedding of the tokenizer, field extractors, inverted index and
BM25 scorer of `src/utils/indexer.ts`, together with theorems settling the
frozen claims about them.

Conventions:
* JS strings are modelled as `List Char` (`Str` below); lowercasing is
  modelled for the ASCII range, the only range exercised by the indexed
  vocabulary patterns and by every concrete input used in the theorems.
* JS numbers are modelled as `ℕ` where the source only counts, and as `ℝ`
  where the source does float arithmetic (scores, averages).
* The stateful `IndexSearch` class becomes a structure with explicit state
  passing: `add` returns the updated state, `search` reads the state.
* JS `Map`s read through `get`-with-default are modelled as total functions
  with that default; the score accumulator `Map`, whose *iteration order*
  matters for ranking, is modelled as an association list in key insertion
  order, mirroring JS `Map` iteration semantics.
-/

set_option maxRecDepth 4000

namespace Indexer

/-- JS strings as lists of characters. -/
abbrev Str := List Char

/-- Coerce a Lean string literal to `Str`. -/
def str (s : String) : Str := s.data

/-- ASCII lowercasing of one character, as `String.prototype.toLowerCase`
acts on the ASCII range (the only range the tokenizer's character classes
and all concrete inputs in this file use). -/
def lowerChar (c : Char) : Char :=
  if 'A' ≤ c ∧ c ≤ 'Z' then Char.ofNat (c.toNat + 32) else c

/-- `text.toLowerCase()` on the ASCII range. -/
def toLowerStr (s : Str) : Str := s.map lowerChar

/-- Character class `[A-Za-z0-9_]` of `TOKEN_RE` (also JS `\w`). -/
def isWordChar (c : Char) : Bool :=
  ('a' ≤ c && c ≤ 'z') || ('A' ≤ c && c ≤ 'Z') || ('0' ≤ c && c ≤ '9') || c = '_'

/-- `[a-z]`. -/
def isLowerAZ (c : Char) : Bool := 'a' ≤ c && c ≤ 'z'

/-- `[A-Z]`. -/
def isUpperAZ (c : Char) : Bool := 'A' ≤ c && c ≤ 'Z'

/-- JS `\s` restricted to the ASCII whitespace characters. -/
def isSpace (c : Char) : Bool :=
  c = ' ' || c = '\t' || c = '\n' || c = '\r' || c = '\x0b' || c = '\x0c'

/-- The `STOP_WORDS` set of `src/utils/stopwords.ts`, verbatim. -/
def STOP_WORDS : List Str := [
  "a", "about", "above", "after", "again", "against", "all", "am", "an", "and",
  "any", "are", "as", "at", "be", "because", "been", "before", "being", "below",
  "between", "both", "but", "by", "can", "could", "did", "do", "does", "doing",
  "down", "during", "each", "few", "for", "from", "further", "had", "has",
  "have", "having", "he", "her", "here", "hers", "herself", "him", "himself",
  "his", "how", "i", "if", "in", "into", "is", "it", "its", "itself", "just",
  "me", "more", "most", "my", "myself", "no", "nor", "not", "now", "of", "off",
  "on", "once", "only", "or", "other", "our", "ours", "ourselves", "out", "over",
  "own", "same", "she", "should", "so", "some", "such", "than", "that", "the",
  "their", "theirs", "them", "themselves", "then", "there", "these", "they",
  "this", "those", "through", "to", "too", "under", "until", "up", "very", "was",
  "we", "were", "what", "when", "where", "which", "while", "who", "whom", "why",
  "will", "with", "would", "you", "your", "yours", "yourself", "yourselves",
  "also", "come", "even", "get", "got", "go", "going", "gone", "know", "like",
  "make", "made", "may", "might", "much", "must", "need", "new", "one", "see",
  "take", "thing", "think", "use", "used", "using", "want", "way", "well",
  "work", "year", "first", "last", "long", "great", "little", "old", "right",
  "big", "high", "small", "large", "next", "early", "young", "important",
  "public", "bad", "good"].map String.data

/-- The `PRESERVE_TERMS` set of `src/utils/stopwords.ts`, verbatim. -/
def PRESERVE_TERMS : List Str := [
  "mcp", "json", "rpc", "sse", "stdio", "http", "https", "uri", "url", "api",
  "sdk", "cli", "llm", "ai", "ml", "aws", "pydantic", "zod", "typescript",
  "ts"].map String.data

/-!
## Porter stemmer

Modelled from the spec: §4.1 step 6 prescribes "the standard Porter
algorithm … implementers must use a conformant Porter stemmer"; the stemmer
the source imports (`natural`'s `PorterStemmer`) is a third-party library
whose code is not part of this repository, so it is modelled here by the
published Porter (1980) algorithm.  Every concrete word a theorem below
evaluates the stemmer on ("foo", "bar", "foobar", "foo_bar", "zzz", "x",
"ax", stopwords are dropped before stemming) is a fixed point of every
conformant Porter implementation, so the theorems do not depend on the
implementation-specific corners of the library.
-/

/-- `a`, `e`, `i`, `o`, `u`. -/
def isBaseVowel (c : Char) : Bool :=
  c = 'a' || c = 'e' || c = 'i' || c = 'o' || c = 'u'

/-- Vowel/consonant categorisation of a word, one `Bool` per character
(`true` = vowel).  `y` counts as a vowel exactly when the previous
character is a consonant; the first argument says whether that is so. -/
def catsAux : Bool → Str → List Bool
  | _, [] => []
  | prevCons, c :: rest =>
    let v := isBaseVowel c || (c = 'y' && prevCons)
    v :: catsAux (!v) rest

/-- Vowel/consonant categories of a whole word (a leading `y` is a
consonant). -/
def cats (w : Str) : List Bool := catsAux false w

/-- Count of vowel-block→consonant-block transitions in a category list. -/
def measAux : List Bool → ℕ
  | [] => 0
  | [_] => 0
  | a :: b :: rest => (if a && !b then 1 else 0) + measAux (b :: rest)

/-- The Porter measure `m` of a word (`[C](VC)^m[V]`). -/
def porterMeasure (w : Str) : ℕ := measAux (cats w)

/-- `*v*`: the word contains a vowel. -/
def hasVowel (w : Str) : Bool := (cats w).any id

/-- `*d`: the word ends with a double consonant. -/
def endsDoubleC (w : Str) : Bool :=
  match w.reverse, (cats w).reverse with
  | a :: b :: _, ca :: _ => a = b && !ca
  | _, _ => false

/-- `*o`: the word ends consonant-vowel-consonant where the final
consonant is not `w`, `x` or `y`. -/
def endsCVC (w : Str) : Bool :=
  match w.reverse, (cats w).reverse with
  | c1 :: _ :: _ :: _, k1 :: k2 :: k3 :: _ =>
    !k1 && k2 && !k3 && !(c1 = 'w' || c1 = 'x' || c1 = 'y')
  | _, _ => false

/-- Remove a suffix of the given length from the end of a word. -/
def dropSuffix (w : Str) (n : ℕ) : Str := w.take (w.length - n)

/-- Apply the first rule of a list whose suffix matches; once a suffix
matches, that rule alone decides (its condition failing leaves the word
unchanged), as in the published algorithm. -/
def applyRules (w : Str) : List (Str × Str × (Str → Bool)) → Str
  | [] => w
  | (suf, rep, cond) :: rest =>
    if suf.isSuffixOf w then
      let stem := dropSuffix w suf.length
      if cond stem then stem ++ rep else w
    else applyRules w rest

/-- Condition `m > 0` on the stem. -/
def condM0 (stem : Str) : Bool := 0 < porterMeasure stem

/-- Condition `m > 1` on the stem. -/
def condM1 (stem : Str) : Bool := 1 < porterMeasure stem

/-- Porter step 1a: plural endings. -/
def step1a (w : Str) : Str :=
  applyRules w [
    (str "sses", str "ss", fun _ => true),
    (str "ies", str "i", fun _ => true),
    (str "ss", str "ss", fun _ => true),
    (str "s", str "", fun _ => true)]

/-- Porter step 1b clean-up after removing `ed`/`ing`. -/
def step1bPost (w : Str) : Str :=
  if (str "at").isSuffixOf w || (str "bl").isSuffixOf w
      || (str "iz").isSuffixOf w then
    w ++ [ 'e' ]
  else if endsDoubleC w then
    match w.reverse with
    | c :: _ =>
      if c = 'l' || c = 's' || c = 'z' then w else dropSuffix w 1
    | [] => w
  else if porterMeasure w = 1 && endsCVC w then w ++ [ 'e' ]
  else w

/-- Porter step 1b: past/progressive endings. -/
def step1b (w : Str) : Str :=
  if (str "eed").isSuffixOf w then
    let stem := dropSuffix w 3
    if condM0 stem then stem ++ str "ee" else w
  else if (str "ed").isSuffixOf w then
    let stem := dropSuffix w 2
    if hasVowel stem then step1bPost stem else w
  else if (str "ing").isSuffixOf w then
    let stem := dropSuffix w 3
    if hasVowel stem then step1bPost stem else w
  else w

/-- Porter step 1c: terminal `y` to `i` when the stem has a vowel. -/
def step1c (w : Str) : Str :=
  if (str "y").isSuffixOf w then
    let stem := dropSuffix w 1
    if hasVowel stem then stem ++ str "i" else w
  else w

/-- Porter step 2 (all conditions `m > 0`). -/
def step2 (w : Str) : Str :=
  applyRules w [
    (str "ational", str "ate", condM0),
    (str "tional", str "tion", condM0),
    (str "enci", str "ence", condM0),
    (str "anci", str "ance", condM0),
    (str "izer", str "ize", condM0),
    (str "abli", str "able", condM0),
    (str "alli", str "al", condM0),
    (str "entli", str "ent", condM0),
    (str "eli", str "e", condM0),
    (str "ousli", str "ous", condM0),
    (str "ization", str "ize", condM0),
    (str "ation", str "ate", condM0),
    (str "ator", str "ate", condM0),
    (str "alism", str "al", condM0),
    (str "iveness", str "ive", condM0),
    (str "fulness", str "ful", condM0),
    (str "ousness", str "ous", condM0),
    (str "aliti", str "al", condM0),
    (str "iviti", str "ive", condM0),
    (str "biliti", str "ble", condM0)]

/-- Porter step 3 (all conditions `m > 0`). -/
def step3 (w : Str) : Str :=
  applyRules w [
    (str "icate", str "ic", condM0),
    (str "ative", str "", condM0),
    (str "alize", str "al", condM0),
    (str "iciti", str "ic", condM0),
    (str "ical", str "ic", condM0),
    (str "ful", str "", condM0),
    (str "ness", str "", condM0)]

/-- Porter step 4 (all conditions `m > 1`; `ion` additionally needs the
stem to end in `s` or `t`). -/
def step4 (w : Str) : Str :=
  applyRules w [
    (str "al", str "", condM1),
    (str "ance", str "", condM1),
    (str "ence", str "", condM1),
    (str "er", str "", condM1),
    (str "ic", str "", condM1),
    (str "able", str "", condM1),
    (str "ible", str "", condM1),
    (str "ant", str "", condM1),
    (str "ement", str "", condM1),
    (str "ment", str "", condM1),
    (str "ent", str "", condM1),
    (str "ion", str "",
      fun stem => condM1 stem &&
        ((str "s").isSuffixOf stem || (str "t").isSuffixOf stem)),
    (str "ou", str "", condM1),
    (str "ism", str "", condM1),
    (str "ate", str "", condM1),
    (str "iti", str "", condM1),
    (str "ous", str "", condM1),
    (str "ive", str "", condM1),
    (str "ize", str "", condM1)]

/-- Porter step 5a: drop a terminal `e` when safe. -/
def step5a (w : Str) : Str :=
  if (str "e").isSuffixOf w then
    let stem := dropSuffix w 1
    if condM1 stem then stem
    else if porterMeasure stem = 1 && !endsCVC stem then stem
    else w
  else w

/-- Porter step 5b: reduce a terminal double `l` when `m > 1`. -/
def step5b (w : Str) : Str :=
  if condM1 w && endsDoubleC w && (str "l").isSuffixOf w then dropSuffix w 1
  else w

/-- The Porter stemmer on an already lower-cased word.  Words of length at
most two are returned unchanged, as in the reference implementation. -/
def porterStem (w : Str) : Str :=
  if w.length ≤ 2 then w
  else step5b (step5a (step4 (step3 (step2 (step1c (step1b (step1a w)))))))

/-!
## Tokenization (`TOKEN_RE`, `CAMELCASE_RE`, `tokenize`, `generateBigrams`)
-/

/-- One match of `TOKEN_RE = /[A-Za-z0-9_]+(?:-[A-Za-z0-9_]+)*/` starting at
the current position (whose head is a word character): the leading word-char
run extended by `-run` groups while each hyphen is followed by a word
character.  Returns the match and the remaining input.  The first argument
is fuel (any value at least the input length gives the scan semantics). -/
def grabToken : ℕ → Str → Str × Str
  | 0, rest => ([], rest)
  | fuel + 1, rest =>
    let run := rest.takeWhile isWordChar
    let rest1 := rest.drop run.length
    match rest1 with
    | '-' :: r2 =>
      if isWordChar (r2.headD ' ') then
        let (tok, rest') := grabToken fuel r2
        (run ++ '-' :: tok, rest')
      else (run, rest1)
    | _ => (run, rest1)

/-- `text.match(TOKEN_RE)`: all maximal matches, left to right. -/
def tokenMatchesGo : ℕ → Str → List Str
  | 0, _ => []
  | _ + 1, [] => []
  | fuel + 1, c :: rest =>
    if isWordChar c then
      let (tok, rest') := grabToken (c :: rest).length (c :: rest)
      tok :: tokenMatchesGo fuel rest'
    else tokenMatchesGo fuel rest

/-- All `TOKEN_RE` matches of a text. -/
def tokenMatches (text : Str) : List Str := tokenMatchesGo text.length text

/-- `/[a-z][A-Z]/.test(part)`. -/
def hasCamel : Str → Bool
  | [] => false
  | _ :: [] => false
  | a :: b :: rest => (isLowerAZ a && isUpperAZ b) || hasCamel (b :: rest)

/-- `part.split(CAMELCASE_RE)` with
`CAMELCASE_RE = /(?<=[a-z])(?=[A-Z])/`: cut between every adjacent
lower-case/upper-case pair. -/
def camelSplitGo (cur : Str) : Str → List Str
  | [] => [cur]
  | a :: tail =>
    match tail with
    | [] => [cur ++ [a]]
    | b :: _ =>
      if isLowerAZ a && isUpperAZ b then (cur ++ [a]) :: camelSplitGo [] tail
      else camelSplitGo (cur ++ [a]) tail

/-- Split a part at its camel-case boundaries. -/
def camelSplit (part : Str) : List Str := camelSplitGo [] part

/-- The tokens the camel-case inner loop of `tokenize` pushes for the
sub-parts of one camel-case part (the loop only appends to the shared
`tokens` array, so it is modelled as the appended list). -/
def camelEmit (part : Str) : List Str :=
  (camelSplit part).foldl
    (fun acc camelPart =>
      let camelLower := toLowerStr camelPart
      if camelLower = [] ∨ camelLower ∈ STOP_WORDS then acc
      else if camelLower ∈ PRESERVE_TERMS then acc ++ [camelLower]
      else
        let stemmed := porterStem camelLower
        if stemmed ∈ STOP_WORDS then acc else acc ++ [stemmed])
    []

/-- The body of the `for (const part of parts)` loop of `tokenize`,
acting on the shared `tokens` array (`tokens` is threaded explicitly;
every branch of the source only appends to it). -/
def processPart (tokens : List Str) (part : Str) : List Str :=
  let partLower := toLowerStr part
  if partLower = [] ∨ partLower ∈ STOP_WORDS then tokens
  else if partLower ∈ PRESERVE_TERMS then tokens ++ [partLower]
  else if hasCamel part then
    let afterSub := tokens ++ camelEmit part
    let stemmedOriginal := porterStem partLower
    if stemmedOriginal ∉ STOP_WORDS ∧ stemmedOriginal ∉ afterSub then
      afterSub ++ [stemmedOriginal]
    else afterSub
  else
    let stemmed := porterStem partLower
    if stemmed ∈ STOP_WORDS then tokens else tokens ++ [stemmed]

/-- The hyphen-split pass of `tokenize`: each raw `TOKEN_RE` match is split
on `-` when it contains one (the parts are processed in order on the shared
token list, so the two nested source loops flatten to one list). -/
def flatParts (text : Str) : List Str :=
  (tokenMatches text).flatMap fun tok =>
    if '-' ∈ tok then tok.splitOn '-' else [tok]

/-- `tokenize` of `src/utils/indexer.ts`. -/
def tokenize (text : Str) : List Str := (flatParts text).foldl processPart []

/-- `generateBigrams`: adjacent tokens joined with `_`. -/
def generateBigrams : List Str → List Str
  | [] => []
  | a :: tail =>
    match tail with
    | [] => []
    | b :: _ => (a ++ '_' :: b) :: generateBigrams tail

/-- Modelled from the spec: the variant of the camel-case loop body that
claim C6 and spec §4.1 step 5 describe, in which the stemmed original part
is deduplicated "only within this one part's output, not globally" — the
membership test looks at the current part's sub-part emissions only, not at
the whole token list of the call.  (The source instead tests
`tokens.includes`, i.e. the whole list.) -/
def processPartPerPartDedup (tokens : List Str) (part : Str) : List Str :=
  let partLower := toLowerStr part
  if partLower = [] ∨ partLower ∈ STOP_WORDS then tokens
  else if partLower ∈ PRESERVE_TERMS then tokens ++ [partLower]
  else if hasCamel part then
    let sub := camelEmit part
    let stemmedOriginal := porterStem partLower
    if stemmedOriginal ∉ STOP_WORDS ∧ stemmedOriginal ∉ sub then
      tokens ++ sub ++ [stemmedOriginal]
    else tokens ++ sub
  else
    let stemmed := porterStem partLower
    if stemmed ∈ STOP_WORDS then tokens else tokens ++ [stemmed]

/-- Modelled from the spec: `tokenize` as claim C6 describes it (dedup of
the stemmed original scoped to the current part). -/
def tokenizePerPartDedup (text : Str) : List Str :=
  (flatParts text).foldl processPartPerPartDedup []

/-!
## Markdown field extraction (`extractMatches` with the four `MD_*` regexes)

`extractMatches(text, re)` collects `match[1] || match[0]` for every global
match and joins the results with single spaces.  Each regex is embedded as
a direct left-to-right scanner with the exact greedy/lazy semantics of the
pattern; a scanner failure at one position moves the scan one character
right, a success resumes it at the end of the whole match (`lastIndex`).
All captures of the header, inline-code and link patterns are necessarily
non-empty, so `match[1] || match[0]` is just the capture there; only the
code-block capture `([\s\S]*?)` can be empty, in which case the whole
match is emitted instead.
-/

/-- Join a list of extracted pieces with single spaces (`matches.join(" ")`). -/
def joinSpace (pieces : List Str) : Str := (pieces.intersperse [' ']).flatten

/-- Attempt `/^#{1,6}\s+(.+)$/m` at a line-start position: 1–6 `#`s, then
at least one whitespace (greedily consumed, giving one character back when
everything to the end of input is whitespace), then a non-empty capture of
non-newline characters up to the end of its line.  Returns the capture and
the rest of the input after the match. -/
def headerMatchAt (l : Str) : Option (Str × Str) :=
  let hashes := l.takeWhile (fun c => c = '#')
  let h := hashes.length
  if 1 ≤ h ∧ h ≤ 6 then
    let afterH := l.drop h
    let ws := afterH.takeWhile isSpace
    let q := ws.length
    if q = 0 then none
    else
      let afterW := afterH.drop q
      match afterW with
      | c :: _ =>
        let cap := (c :: afterW.tail).takeWhile (fun c => ¬ c = '\n')
        some (cap, afterW.drop cap.length)
      | [] =>
        -- `\s+` consumed everything; backtrack to the last whitespace
        -- character that is not a newline (at least one `\s` must remain).
        match (ws.drop 1).reverse.dropWhile (fun c => c = '\n') with
        | [] => none
        | _ :: revRest =>
          let t := 1 + revRest.length
          let cap := (ws.drop t).takeWhile (fun c => ¬ c = '\n')
          some (cap, afterH.drop (t + cap.length))
      else none

/-- Scan for `MD_HEADER_RE` matches; the `Bool` records whether the current
position is a line start (position 0 or just after a newline), where alone
the `^`-anchored pattern can match under the `m` flag. -/
def headerScan : ℕ → Bool → Str → List Str
  | 0, _, _ => []
  | _ + 1, _, [] => []
  | fuel + 1, atStart, c :: rest =>
    if atStart then
      match headerMatchAt (c :: rest) with
      | some (cap, rest') => cap :: headerScan fuel false rest'
      | none => headerScan fuel (c = '\n') rest
    else headerScan fuel (c = '\n') rest

/-- `extractMatches(text, MD_HEADER_RE)`. -/
def extractHeaders (text : Str) : Str :=
  joinSpace (headerScan (text.length + 1) true text)

/-- Find the earliest triple-backtick in the input; returns the text before
it and the text after it (the lazy `([\s\S]*?)` body search). -/
def findFence : Str → Option (Str × Str)
  | [] => none
  | c :: rest =>
    if (str "```").isPrefixOf (c :: rest) then some ([], (c :: rest).drop 3)
    else (findFence rest).map fun p => (c :: p.1, p.2)

/-- Attempt `/```[\w]*\n([\s\S]*?)```/` at a position: an opening fence,
a greedy word-character language tag that must be followed by a newline,
then the lazy body up to the earliest closing fence.  Returns the emitted
string (`match[1] || match[0]`) and the rest of the input. -/
def codeBlockMatchAt (l : Str) : Option (Str × Str) :=
  if (str "```").isPrefixOf l then
    let after := l.drop 3
    let lang := after.takeWhile isWordChar
    match after.drop lang.length with
    | '\n' :: body =>
      match findFence body with
      | some (cap, rest') =>
        some (if cap = [] then str "```" ++ lang ++ '\n' :: str "```" else cap,
              rest')
      | none => none
    | _ => none
  else none

/-- Attempt `` /`([^`]+)`/ `` at a position: a backtick, a non-empty run of
non-backtick characters, a closing backtick. -/
def inlineCodeMatchAt (l : Str) : Option (Str × Str) :=
  match l with
  | '`' :: rest =>
    let cap := rest.takeWhile (fun c => ¬ c = '`')
    if cap = [] then none
    else match rest.drop cap.length with
      | '`' :: rest' => some (cap, rest')
      | _ => none
  | _ => none

/-- Attempt `/\[([^\]]+)\]\([^)]+\)/` at a position. -/
def linkMatchAt (l : Str) : Option (Str × Str) :=
  match l with
  | '[' :: rest =>
    let lab := rest.takeWhile (fun c => ¬ c = ']')
    if lab = [] then none
    else match rest.drop lab.length with
      | ']' :: '(' :: r2 =>
        let target := r2.takeWhile (fun c => ¬ c = ')')
        if target = [] then none
        else match r2.drop target.length with
          | ')' :: rest' => some (lab, rest')
          | _ => none
      | _ => none
  | _ => none

/-- Generic global scan for an unanchored pattern attempt. -/
def scanAll (attempt : Str → Option (Str × Str)) : ℕ → Str → List Str
  | 0, _ => []
  | _ + 1, [] => []
  | fuel + 1, c :: rest =>
    match attempt (c :: rest) with
    | some (out, rest') => out :: scanAll attempt fuel rest'
    | none => scanAll attempt fuel rest

/-- `extractMatches(text, MD_CODE_BLOCK_RE)`. -/
def extractCodeBlocks (text : Str) : Str :=
  joinSpace (scanAll codeBlockMatchAt (text.length + 1) text)

/-- `extractMatches(text, MD_INLINE_CODE_RE)`. -/
def extractInlineCode (text : Str) : Str :=
  joinSpace (scanAll inlineCodeMatchAt (text.length + 1) text)

/-- `extractMatches(text, MD_LINK_TEXT_RE)`. -/
def extractLinkText (text : Str) : Str :=
  joinSpace (scanAll linkMatchAt (text.length + 1) text)

/-!
## Documents, the weighted haystack and term counting
-/

/-- The `Doc` interface. -/
structure Doc where
  uri : Str
  displayTitle : Str
  content : Str
  indexTitle : Str
deriving DecidableEq

/-- The all-empty document (used as the out-of-range default where the
source would read `undefined` off the end of `this.docs`; reachable
searches never hit it because posting lists only hold valid indices). -/
def defaultDoc : Doc := ⟨[], [], [], []⟩

/-- The weighted haystack built by `add`: index title, headers, link text,
code blocks, inline code and content, each lower-cased, empty pieces
dropped (`filter(Boolean)`), joined with single spaces. -/
def haystackOf (doc : Doc) : Str :=
  joinSpace ([
    toLowerStr doc.indexTitle,
    toLowerStr (extractHeaders doc.content),
    toLowerStr (extractLinkText doc.content),
    toLowerStr (extractCodeBlocks doc.content),
    toLowerStr (extractInlineCode doc.content),
    toLowerStr doc.content].filter fun p => ¬ p = [])

/-- Unigrams plus bigrams of a document's haystack — exactly the token
sequence `add` walks. -/
def allTokensOf (doc : Doc) : List Str :=
  tokenize (haystackOf doc) ++ generateBigrams (tokenize (haystackOf doc))

/-- `countOccurrences` scan: non-overlapping left-to-right occurrences,
each found occurrence advancing past its end (`pos += token.length`).
Fuel is the text length; each step consumes at least one character.
(The source's `indexOf` loop never terminates on an empty token; it is
never called with one, and this model returns the fuel-exhaustion count
0 there.) -/
def countOccAux (tok : Str) : ℕ → Str → ℕ
  | 0, _ => 0
  | _ + 1, [] => 0
  | fuel + 1, c :: rest =>
    if tok ≠ [] ∧ tok.isPrefixOf (c :: rest) then
      1 + countOccAux tok fuel ((c :: rest).drop tok.length)
    else countOccAux tok fuel rest

/-- `countOccurrences(text, token)` — the text is lower-cased internally
(case-insensitive counting for the lower-cased tokens the callers pass). -/
def countOccurrences (text tok : Str) : ℕ :=
  countOccAux tok text.length (toLowerStr text)

/-- `getTitleBoost`: 8 for empty content, 5 under 800 characters,
otherwise 3. -/
def getTitleBoost (doc : Doc) : ℕ :=
  if doc.content.length = 0 then 8
  else if doc.content.length < 800 then 5
  else 3

/-- The combined weighted term frequency of `calculateBM25Score`:
content + title×boost + headers×4 + code blocks×2 + link text×2 (inline
code is *not* counted by the scorer, unlike the haystack). -/
def weightedTf (doc : Doc) (tok : Str) : ℕ :=
  countOccurrences (toLowerStr doc.content) tok
    + countOccurrences (toLowerStr doc.indexTitle) tok * getTitleBoost doc
    + countOccurrences (toLowerStr (extractHeaders doc.content)) tok * 4
    + countOccurrences (toLowerStr (extractCodeBlocks doc.content)) tok * 2
    + countOccurrences (toLowerStr (extractLinkText doc.content)) tok * 2

/-!
## The `IndexSearch` class

The private fields become structure fields; the `Map`s `docFrequency` and
`docIndices`, read only through `get`-with-default, become total functions
with those defaults.  `add` returns the updated state (the source returns
`this` after mutating it); `search` reads the state.
-/

/-- The state of an `IndexSearch` instance. -/
structure IndexSearch where
  docs : List Doc
  docFrequency : Str → ℕ
  docIndices : Str → List ℕ
  docLengths : List ℕ
  avgDocLength : ℝ

/-- A freshly constructed index: no documents, empty maps, average 0. -/
noncomputable def IndexSearch.empty : IndexSearch :=
  ⟨[], fun _ => 0, fun _ => [], [], 0⟩

/-- Accumulator of the token loop in `add`. -/
structure AddAcc where
  dIdx : Str → List ℕ
  dF : Str → ℕ
  seen : List Str
  dTok : List Str

/-- One iteration of the `for (const tok of allTokens)` loop of `add`:
append the document position to the token's posting list, bump the
document frequency once per document (via the `seen` set), and record the
token. -/
def addTokStep (idx : ℕ) (acc : AddAcc) (tok : Str) : AddAcc :=
  { dIdx := fun t => if t = tok then acc.dIdx tok ++ [idx] else acc.dIdx t
    dF := if tok ∈ acc.seen then acc.dF
          else fun t => if t = tok then acc.dF tok + 1 else acc.dF t
    seen := if tok ∈ acc.seen then acc.seen else tok :: acc.seen
    dTok := acc.dTok ++ [tok] }

/-- `IndexSearch.add`: push the document, walk its haystack tokens, record
its length and recompute the average length. -/
noncomputable def IndexSearch.add (st : IndexSearch) (doc : Doc) : IndexSearch :=
  let idx := st.docs.length
  let r := (allTokensOf doc).foldl (addTokStep idx)
    ⟨st.docIndices, st.docFrequency, [], []⟩
  let newLengths := st.docLengths ++ [r.dTok.length]
  { docs := st.docs ++ [doc]
    docIndices := r.dIdx
    docFrequency := r.dF
    docLengths := newLengths
    avgDocLength :=
      (newLengths.foldl (fun a b => a + (b : ℝ)) 0) / newLengths.length }

/-- The states reachable by a sequence of `add` calls on a fresh index. -/
noncomputable def buildIndex (docs : List Doc) : IndexSearch :=
  docs.foldl IndexSearch.add IndexSearch.empty

/-!
## BM25 scoring (`calculateBM25Score`)
-/

/-- The BM25 `k1` constant. -/
def K1 : ℝ := 1.5

/-- The BM25 `b` constant (`B` in the source; renamed to avoid clashing
with ambient single-letter names). -/
def Bparam : ℝ := 0.75

/-- `this.docLengths[docIdx] || 1`: the recorded length with both `0` and
an out-of-range read (`undefined`) replaced by `1`. -/
def effectiveDocLength (st : IndexSearch) (docIdx : ℕ) : ℕ :=
  if st.docLengths.getD docIdx 0 = 0 then 1 else st.docLengths.getD docIdx 0

/-- The argument of the IDF logarithm:
`(nDocs − df + 0.5) / (df + 0.5) + 1.0` with `nDocs` floored at 1. -/
noncomputable def idfArg (st : IndexSearch) (tok : Str) : ℝ :=
  ((max st.docs.length 1 : ℕ) - (st.docFrequency tok : ℝ) + 0.5)
    / ((st.docFrequency tok : ℝ) + 0.5) + 1.0

/-- The smoothed BM25 IDF. -/
noncomputable def idf (st : IndexSearch) (tok : Str) : ℝ :=
  Real.log (idfArg st tok)

/-- The TF-normalisation denominator
`weightedTf + k1 × (1 − b + b × (docLength / avgLen))` with the average
floored at 1. -/
noncomputable def tfDenom (st : IndexSearch) (doc : Doc) (tok : Str)
    (docIdx : ℕ) : ℝ :=
  (weightedTf doc tok : ℝ)
    + K1 * (1 - Bparam
        + Bparam * ((effectiveDocLength st docIdx : ℝ) / max st.avgDocLength 1))

/-- The length-normalised term-frequency component of the score. -/
noncomputable def tfComponent (st : IndexSearch) (doc : Doc) (tok : Str)
    (docIdx : ℕ) : ℝ :=
  ((weightedTf doc tok : ℝ) * (K1 + 1)) / tfDenom st doc tok docIdx

/-- Modelled from the spec: the TF component exactly as claim C5 words it,
as a function of the weighted term frequency, the document length and the
average length named in the formula, with `k1 = 1.5` and `b = 0.75`. -/
noncomputable def specTfComponent (wtf dl avg : ℝ) : ℝ :=
  wtf * (1.5 + 1) / (wtf + 1.5 * (1 - 0.75 + 0.75 * (dl / avg)))

/-- `calculateBM25Score`: IDF times the normalised TF component. -/
noncomputable def calculateBM25Score (st : IndexSearch) (doc : Doc)
    (tok : Str) (docIdx : ℕ) : ℝ :=
  idf st tok * tfComponent st doc tok docIdx

/-!
## Search (`IndexSearch.search`)

The `scores` accumulator is a JS `Map` keyed by document position; its
*iteration order* (key first-insertion order) matters for ranking ties, so
it is modelled as an association list: `set` of a present key updates it
in place, `set` of a new key appends.  `Array.prototype.sort` is stable
(ECMAScript 2019), and its comparator `(a, b) => b.score - a.score` orders
by score descending, so `ranked` is the stable descending sort of the
accumulator entries; it is modelled by a stable insertion sort.  The source
attaches each document to its entry before sorting; since the comparator
reads only the score, sorting the `(position, score)` pairs and mapping
positions to documents afterwards yields the same list.
-/

/-- `scores.get(idx) || 0`. -/
noncomputable def scoreGet (m : List (ℕ × ℝ)) (k : ℕ) : ℝ :=
  (((m.find? fun p => p.1 = k).map Prod.snd).getD 0)

/-- `scores.set(idx, v)`: update in place if present, else append. -/
noncomputable def scoreSet (m : List (ℕ × ℝ)) (k : ℕ) (v : ℝ) : List (ℕ × ℝ) :=
  if k ∈ m.map Prod.fst then m.map fun p => if p.1 = k then (k, v) else p
  else m ++ [(k, v)]

/-- The query-token list: unigrams of the query plus their bigrams. -/
def queryTokens (q : Str) : List Str :=
  tokenize q ++ generateBigrams (tokenize q)

/-- The score-accumulation double loop of `search`: for every query token,
for every posting of that token, add the document's BM25 score for the
token to its running total. -/
noncomputable def accumScores (st : IndexSearch) (qts : List Str) :
    List (ℕ × ℝ) :=
  qts.foldl
    (fun scores qt =>
      (st.docIndices qt).foldl
        (fun scores idx =>
          scoreSet scores idx
            (scoreGet scores idx
              + calculateBM25Score st (st.docs.getD idx defaultDoc) qt idx))
        scores)
    []

/-- Stable descending insertion of one entry: it goes after every entry of
score at least its own (ties keep the earlier entry first) and before the
first strictly smaller one. -/
noncomputable def insertDesc (x : ℕ × ℝ) : List (ℕ × ℝ) → List (ℕ × ℝ)
  | [] => [x]
  | y :: ys => if x.2 ≤ y.2 then y :: insertDesc x ys else x :: y :: ys

/-- Stable sort by score descending (the unique stable order produced by
the ECMAScript stable `sort` under the comparator `b.score - a.score`). -/
noncomputable def sortDesc (l : List (ℕ × ℝ)) : List (ℕ × ℝ) :=
  l.foldl (fun acc x => insertDesc x acc) []

/-- A search result record. -/
structure SearchResult where
  score : ℝ
  doc : Doc

/-- The ranked entry list of `search` before truncation. -/
noncomputable def searchRanked (st : IndexSearch) (q : Str) : List (ℕ × ℝ) :=
  sortDesc (accumScores st (queryTokens q))

/-- `IndexSearch.search(query, k)`. -/
noncomputable def IndexSearch.search (st : IndexSearch) (q : Str) (k : ℕ) :
    List SearchResult :=
  if st.docs.length = 0 then []
  else
    ((searchRanked st q).map fun p =>
      ⟨p.2, st.docs.getD p.1 defaultDoc⟩).take k

/-- `search` with the state threaded explicitly, as the class method is: the
body of the source method only reads the fields (`this.docs`,
`this.docIndices`, `this.docFrequency`, `this.docLengths`,
`this.avgDocLength`) and never assigns to any of them, so the state it
hands back is the state it received. -/
noncomputable def searchFull (st : IndexSearch) (q : Str) (k : ℕ) :
    IndexSearch × List SearchResult :=
  (st, st.search q k)

/-!
## Concrete documents used by witnesses and counterexamples
-/

/-- A one-word document: content `"foo"`, no title. -/
def dFoo : Doc := ⟨str "a", str "A", str "foo", str ""⟩

/-- A one-word document: content `"bar"`, no title. -/
def dBar : Doc := ⟨str "b", str "B", str "bar", str ""⟩

/-- A document whose whole content is the stopword `"the"`: its haystack
tokenizes to nothing, so its recorded document length is `0`. -/
def dThe : Doc := ⟨str "u", str "T", str "the", str ""⟩

/-!
## Lemmas about the stable descending sort
-/

/-- Descending comparison on accumulator entries. -/
def entryGE (a b : ℕ × ℝ) : Prop := b.2 ≤ a.2

theorem mem_insertDesc {a x : ℕ × ℝ} {l : List (ℕ × ℝ)} :
    a ∈ insertDesc x l ↔ a = x ∨ a ∈ l := by
  induction l with
  | nil => simp [insertDesc]
  | cons y ys ih =>
    unfold insertDesc
    split
    · simp only [List.mem_cons, ih]
      tauto
    · simp only [List.mem_cons]

theorem insertDesc_perm (x : ℕ × ℝ) (l : List (ℕ × ℝ)) :
    List.Perm (insertDesc x l) (x :: l) := by
  induction l with
  | nil => exact List.Perm.refl _
  | cons y ys ih =>
    unfold insertDesc
    split
    · exact (ih.cons y).trans (List.Perm.swap x y ys)
    · exact List.Perm.refl _

theorem pairwise_insertDesc {x : ℕ × ℝ} {l : List (ℕ × ℝ)}
    (h : l.Pairwise entryGE) : (insertDesc x l).Pairwise entryGE := by
  induction l with
  | nil => simp [insertDesc, entryGE]
  | cons y ys ih =>
    rcases List.pairwise_cons.mp h with ⟨hy, hys⟩
    unfold insertDesc
    split
    case isTrue hle =>
      refine List.pairwise_cons.mpr ⟨?_, ih hys⟩
      intro z hz
      rcases mem_insertDesc.mp hz with rfl | hz'
      · exact hle
      · exact hy z hz'
    case isFalse hgt =>
      refine List.pairwise_cons.mpr ⟨?_, h⟩
      intro z hz
      rcases List.mem_cons.mp hz with rfl | hz'
      · exact le_of_not_le hgt
      · exact le_trans (hy z hz') (le_of_not_le hgt)

theorem sortDescAux_perm (l : List (ℕ × ℝ)) :
    ∀ acc, List.Perm (l.foldl (fun acc x => insertDesc x acc) acc)
      (acc ++ l) := by
  induction l with
  | nil => intro acc; simp
  | cons x xs ih =>
    intro acc
    simp only [List.foldl_cons]
    exact ((ih (insertDesc x acc)).trans
      (((insertDesc_perm x acc).append_right xs).trans
        List.perm_middle.symm))

theorem sortDesc_perm (l : List (ℕ × ℝ)) : List.Perm (sortDesc l) l := by
  simpa using sortDescAux_perm l []

theorem sortDescAux_pairwise (l : List (ℕ × ℝ)) :
    ∀ acc, acc.Pairwise entryGE →
      (l.foldl (fun acc x => insertDesc x acc) acc).Pairwise entryGE := by
  induction l with
  | nil => intro acc h; simpa using h
  | cons x xs ih =>
    intro acc h
    simp only [List.foldl_cons]
    exact ih _ (pairwise_insertDesc h)

theorem sortDesc_pairwise (l : List (ℕ × ℝ)) :
    (sortDesc l).Pairwise entryGE :=
  sortDescAux_pairwise l [] List.Pairwise.nil

theorem filter_insertDesc (x : ℕ × ℝ) (s : ℝ) {l : List (ℕ × ℝ)}
    (h : l.Pairwise entryGE) :
    (insertDesc x l).filter (fun p => p.2 = s)
      = if x.2 = s then l.filter (fun p => p.2 = s) ++ [x]
        else l.filter (fun p => p.2 = s) := by
  induction l with
  | nil => by_cases hx : x.2 = s <;> simp [insertDesc, hx]
  | cons y ys ih =>
    rcases List.pairwise_cons.mp h with ⟨hy, hys⟩
    unfold insertDesc
    split
    case isTrue hle =>
      by_cases hx : x.2 = s <;>
        by_cases hyv : y.2 = s <;>
          simp [List.filter_cons, hx, hyv, ih hys]
    case isFalse hgt =>
      have hlt : y.2 < x.2 := lt_of_not_le hgt
      by_cases hx : x.2 = s
      · have hnone : ∀ z ∈ y :: ys, ¬ z.2 = s := by
          intro z hz
          rcases List.mem_cons.mp hz with rfl | hz'
          · exact ne_of_lt (hx ▸ hlt)
          · exact ne_of_lt (hx ▸ lt_of_le_of_lt (hy z hz') hlt)
        have hfil : (y :: ys).filter (fun p => p.2 = s) = [] :=
          List.filter_eq_nil_iff.mpr (by simpa using hnone)
        simp [List.filter_cons, hx, hfil, hnone y (by simp),
          List.filter_eq_nil_iff.mp hfil]
      · simp [List.filter_cons, hx]

theorem filter_sortDescAux (s : ℝ) (l : List (ℕ × ℝ)) :
    ∀ acc, acc.Pairwise entryGE →
      (l.foldl (fun acc x => insertDesc x acc) acc).filter (fun p => p.2 = s)
        = acc.filter (fun p => p.2 = s) ++ l.filter (fun p => p.2 = s) := by
  induction l with
  | nil => intro acc _; simp
  | cons x xs ih =>
    intro acc h
    simp only [List.foldl_cons]
    rw [ih _ (pairwise_insertDesc h), filter_insertDesc x s h]
    by_cases hx : x.2 = s <;> simp [List.filter_cons, hx]

theorem sortDesc_filter (l : List (ℕ × ℝ)) (s : ℝ) :
    (sortDesc l).filter (fun p => p.2 = s)
      = l.filter (fun p => p.2 = s) := by
  simpa using filter_sortDescAux s l [] List.Pairwise.nil

/-!
## Lemmas about the score accumulator's keys
-/

theorem scoreSet_keys_update (m : List (ℕ × ℝ)) (k : ℕ) (v : ℝ) :
    (m.map fun p => if p.1 = k then (k, v) else p).map Prod.fst
      = m.map Prod.fst := by
  induction m with
  | nil => simp
  | cons p ps ih =>
    simp only [List.map_cons]
    rw [ih]
    by_cases hp : p.1 = k <;> simp [hp]

theorem scoreSet_keys (m : List (ℕ × ℝ)) (k : ℕ) (v : ℝ) :
    (scoreSet m k v).map Prod.fst
      = if k ∈ m.map Prod.fst then m.map Prod.fst
        else m.map Prod.fst ++ [k] := by
  unfold scoreSet
  split
  · exact scoreSet_keys_update m k v
  · simp

theorem scoreSet_keys_nodup {m : List (ℕ × ℝ)} (k : ℕ) (v : ℝ)
    (h : (m.map Prod.fst).Nodup) : ((scoreSet m k v).map Prod.fst).Nodup := by
  rw [scoreSet_keys]
  split
  · exact h
  case isFalse hk =>
    exact ((List.perm_append_singleton k _).nodup_iff).mpr
      (List.nodup_cons.mpr ⟨hk, h⟩)

theorem accumScores_inner_keys_nodup (st : IndexSearch) (qt : Str)
    (idxs : List ℕ) :
    ∀ m : List (ℕ × ℝ), (m.map Prod.fst).Nodup →
      ((idxs.foldl
        (fun scores idx =>
          scoreSet scores idx
            (scoreGet scores idx
              + calculateBM25Score st (st.docs.getD idx defaultDoc) qt idx))
        m).map Prod.fst).Nodup := by
  induction idxs with
  | nil => intro m h; simpa using h
  | cons i is ih =>
    intro m h
    simp only [List.foldl_cons]
    exact ih _ (scoreSet_keys_nodup i _ h)

theorem accumScores_keys_nodup (st : IndexSearch) (qts : List Str) :
    ((accumScores st qts).map Prod.fst).Nodup := by
  unfold accumScores
  generalize hm : ([] : List (ℕ × ℝ)) = m
  have hmn : (m.map Prod.fst).Nodup := by simp [← hm]
  clear hm
  induction qts generalizing m with
  | nil => simpa using hmn
  | cons qt qts ih =>
    simp only [List.foldl_cons]
    exact ih _ (accumScores_inner_keys_nodup st qt _ m hmn)

/-!
## Lemmas about `add` and the reachable states `buildIndex docs`
-/

theorem foldl_addTokStep_dF (idx : ℕ) (toks : List Str) :
    ∀ (acc : AddAcc) (t : Str),
      (toks.foldl (addTokStep idx) acc).dF t
        = acc.dF t + (if t ∈ toks ∧ t ∉ acc.seen then 1 else 0) := by
  induction toks with
  | nil => intro acc t; simp
  | cons a as ih =>
    intro acc t
    simp only [List.foldl_cons]
    rw [ih]
    by_cases ha : a ∈ acc.seen
    · by_cases hta : t = a
      · subst hta
        simp [addTokStep, ha]
      · simp [addTokStep, ha, hta, List.mem_cons]
    · by_cases hta : t = a
      · subst hta
        simp [addTokStep, ha, List.mem_cons]
      · simp [addTokStep, ha, hta, List.mem_cons]

theorem add_docFrequency (st : IndexSearch) (doc : Doc) (t : Str) :
    (st.add doc).docFrequency t
      = st.docFrequency t + (if t ∈ allTokensOf doc then 1 else 0) := by
  show ((allTokensOf doc).foldl (addTokStep st.docs.length)
      ⟨st.docIndices, st.docFrequency, [], []⟩).dF t = _
  rw [foldl_addTokStep_dF]
  simp

theorem add_docs (st : IndexSearch) (doc : Doc) :
    (st.add doc).docs = st.docs ++ [doc] := rfl

theorem add_avg (st : IndexSearch) (doc : Doc) :
    (st.add doc).avgDocLength
      = ((st.add doc).docLengths.foldl (fun a b => a + (b : ℝ)) 0)
          / (st.add doc).docLengths.length := rfl

theorem buildIndex_concat (ds : List Doc) (d : Doc) :
    buildIndex (ds ++ [d]) = (buildIndex ds).add d := by
  simp [buildIndex, List.foldl_append]

theorem buildIndex_docs (docs : List Doc) : (buildIndex docs).docs = docs := by
  induction docs using List.reverseRecOn with
  | nil => rfl
  | append_singleton ds d ih =>
    rw [buildIndex_concat, add_docs, ih]

theorem buildIndex_docFrequency (docs : List Doc) (t : Str) :
    (buildIndex docs).docFrequency t
      = (docs.filter fun d => t ∈ allTokensOf d).length := by
  induction docs using List.reverseRecOn with
  | nil => rfl
  | append_singleton ds d ih =>
    rw [buildIndex_concat, add_docFrequency, ih, List.filter_append]
    by_cases hd : t ∈ allTokensOf d <;> simp [hd]

theorem buildIndex_df_le (docs : List Doc) (t : Str) :
    (buildIndex docs).docFrequency t ≤ docs.length := by
  rw [buildIndex_docFrequency]
  exact List.length_filter_le _ _

theorem buildIndex_avg (docs : List Doc) :
    (buildIndex docs).avgDocLength
      = ((buildIndex docs).docLengths.foldl (fun a b => a + (b : ℝ)) 0)
          / (buildIndex docs).docLengths.length := by
  induction docs using List.reverseRecOn with
  | nil =>
    show (0 : ℝ) = 0 / (0 : ℕ)
    norm_num
  | append_singleton ds d _ =>
    rw [buildIndex_concat]
    exact add_avg _ _

/-!
## Lemmas about degenerate searches
-/

theorem accumScores_of_unknown (st : IndexSearch) (qts : List Str)
    (h : ∀ t ∈ qts, st.docIndices t = []) : accumScores st qts = [] := by
  unfold accumScores
  generalize hm : ([] : List (ℕ × ℝ)) = m
  rw [← hm]
  clear hm
  induction qts with
  | nil => rfl
  | cons qt qts ih =>
    simp only [List.foldl_cons]
    rw [h qt (by simp), List.foldl_nil]
    exact ih fun t ht => h t (by simp [ht])

theorem search_of_accum_nil (st : IndexSearch) (q : Str) (k : ℕ)
    (h : accumScores st (queryTokens q) = []) : st.search q k = [] := by
  unfold IndexSearch.search
  split
  · rfl
  · rw [searchRanked, h]
    simp [sortDesc]

/-!
## Case-insensitivity of `countOccurrences`
-/

theorem lowerChar_ofNat_toNat (c : Char) (h2 : c ≤ 'Z') :
    (Char.ofNat (c.toNat + 32)).toNat = c.toNat + 32 := by
  have h90 : c.toNat ≤ 90 := by
    simp [Char.le_def, UInt32.le_def, BitVec.le_def] at h2
    exact h2
  have hv : (c.toNat + 32).isValidChar := Or.inl (by omega)
  rw [Char.ofNat, dif_pos hv]
  rfl

theorem lowerChar_idem (c : Char) : lowerChar (lowerChar c) = lowerChar c := by
  unfold lowerChar
  split_ifs with h1 h2
  · exfalso
    have hup : (Char.ofNat (c.toNat + 32)).toNat ≤ 90 := by
      have := h2.2
      simp [Char.le_def, UInt32.le_def, BitVec.le_def] at this
      exact this
    rw [lowerChar_ofNat_toNat c h1.2] at hup
    have h65 : 65 ≤ c.toNat := by
      have := h1.1
      simp [Char.le_def, UInt32.le_def, BitVec.le_def] at this
      exact this
    omega
  · rfl
  · rfl

theorem toLowerStr_idem (s : Str) : toLowerStr (toLowerStr s) = toLowerStr s := by
  unfold toLowerStr
  rw [List.map_map]
  induction s with
  | nil => rfl
  | cons c cs ih =>
    simp only [List.map_cons, Function.comp_apply, lowerChar_idem]
    simpa using ih

theorem countOccurrences_toLower (text tok : Str) :
    countOccurrences text tok = countOccurrences (toLowerStr text) tok := by
  unfold countOccurrences
  rw [toLowerStr_idem]
  have h : (toLowerStr text).length = text.length := by simp [toLowerStr]
  rw [h]

/-!
## The claims
-/

/-- **C2.** `search` is a total function of the state (the embedding is a
Lean function, and the source path raises nothing), and each degenerate
situation returns the empty result list: an empty query, an index with
zero documents, a query whose tokenization is empty (in particular a query
of stopwords only), and a query none of whose tokens occurs in the index's
posting lists. -/
theorem c2_search_degenerate_empty (st : IndexSearch) (q : Str) (k : ℕ) :
    st.search (str "") k = [] ∧
    (st.docs.length = 0 → st.search q k = []) ∧
    (tokenize q = [] → st.search q k = []) ∧
    ((∀ t ∈ queryTokens q, st.docIndices t = []) → st.search q k = []) := by
  refine ⟨?_, ?_, ?_, ?_⟩
  · exact search_of_accum_nil st (str "") k rfl
  · intro h
    unfold IndexSearch.search
    rw [if_pos h]
  · intro h
    have hq : queryTokens q = [] := by rw [queryTokens, h]; rfl
    exact search_of_accum_nil st q k (by rw [hq]; rfl)
  · intro h
    exact search_of_accum_nil st q k (accumScores_of_unknown st _ h)

/-- Witness for C2: a stopword-only query, a fresh empty index, and a
query of tokens unknown to a one-document index all return `[]`. -/
theorem c2_search_degenerate_empty_witness :
    (buildIndex []).search (str "anything") 8 = [] ∧
    (buildIndex [dFoo]).search (str "the and or") 8 = [] ∧
    (buildIndex [dFoo]).search (str "zzz") 8 = [] :=
  ⟨(c2_search_degenerate_empty (buildIndex []) (str "anything") 8).2.1
      (by decide),
   (c2_search_degenerate_empty (buildIndex [dFoo]) (str "the and or") 8).2.2.1
      (by decide),
   (c2_search_degenerate_empty (buildIndex [dFoo]) (str "zzz") 8).2.2.2
      (by decide)⟩

/-- **C3.** On every reachable state, for every token and every valid
document position: the IDF logarithm's argument is strictly positive, the
TF-normalisation denominator is at least `k1·(1−b) = 0.375 = 3/8`, and the
BM25 score is non-negative. -/
theorem c3_score_nonneg (docs : List Doc) (tok : Str) (i : ℕ)
    (_h : i < (buildIndex docs).docs.length) :
    0 < idfArg (buildIndex docs) tok ∧
    3 / 8 ≤ tfDenom (buildIndex docs)
        ((buildIndex docs).docs.getD i defaultDoc) tok i ∧
    0 ≤ calculateBM25Score (buildIndex docs)
        ((buildIndex docs).docs.getD i defaultDoc) tok i := by
  have hdf : (buildIndex docs).docFrequency tok
      ≤ max (buildIndex docs).docs.length 1 := by
    rw [buildIndex_docs]
    exact le_trans (buildIndex_df_le docs tok) (le_max_left _ _)
  have hN : ((buildIndex docs).docFrequency tok : ℝ)
      ≤ ((max (buildIndex docs).docs.length 1 : ℕ) : ℝ) := Nat.cast_le.mpr hdf
  have hd0 : (0 : ℝ) ≤ ((buildIndex docs).docFrequency tok : ℝ) :=
    Nat.cast_nonneg _
  have harg1 : 1 ≤ idfArg (buildIndex docs) tok := by
    unfold idfArg
    have hden : (0 : ℝ) < ((buildIndex docs).docFrequency tok : ℝ) + 0.5 := by
      linarith
    have hnum : (0 : ℝ) ≤ ((max (buildIndex docs).docs.length 1 : ℕ) : ℝ)
        - ((buildIndex docs).docFrequency tok : ℝ) + 0.5 := by linarith
    have := div_nonneg hnum hden.le
    linarith
  have hdenom : (3 / 8 : ℝ) ≤ tfDenom (buildIndex docs)
      ((buildIndex docs).docs.getD i defaultDoc) tok i := by
    unfold tfDenom K1 Bparam
    have hw : (0 : ℝ) ≤
        (weightedTf ((buildIndex docs).docs.getD i defaultDoc) tok : ℝ) :=
      Nat.cast_nonneg _
    have hdl : (0 : ℝ) ≤ (effectiveDocLength (buildIndex docs) i : ℝ) :=
      Nat.cast_nonneg _
    have havg : (1 : ℝ) ≤ max (buildIndex docs).avgDocLength 1 :=
      le_max_right _ _
    have hdiv : (0 : ℝ) ≤ (effectiveDocLength (buildIndex docs) i : ℝ)
        / max (buildIndex docs).avgDocLength 1 :=
      div_nonneg hdl (by linarith)
    linarith
  refine ⟨by linarith, hdenom, ?_⟩
  unfold calculateBM25Score
  apply mul_nonneg
  · exact Real.log_nonneg harg1
  · unfold tfComponent
    apply div_nonneg
    · have : (0 : ℝ) ≤ K1 + 1 := by unfold K1; norm_num
      exact mul_nonneg (Nat.cast_nonneg _) this
    · linarith

/-- Witness for C3 on a one-document index and a token it contains. -/
theorem c3_score_nonneg_witness :
    0 < idfArg (buildIndex [dFoo]) (str "foo") ∧
    3 / 8 ≤ tfDenom (buildIndex [dFoo])
        ((buildIndex [dFoo]).docs.getD 0 defaultDoc) (str "foo") 0 ∧
    0 ≤ calculateBM25Score (buildIndex [dFoo])
        ((buildIndex [dFoo]).docs.getD 0 defaultDoc) (str "foo") 0 :=
  c3_score_nonneg [dFoo] (str "foo") 0 (by decide)

/-- **C4.** The weighted term frequency the scorer uses equals
`content + title×boost + headings×4 + code_blocks×2 + links×2`, with the
three-tier title boost (8 at content length 0, 5 under 800, else 3), every
count being the non-overlapping left-to-right count of the token in the
lower-cased extract, and counting is case-insensitive: counting in the
original-case extract agrees with counting in the lower-cased one. -/
theorem c4_weighted_tf_formula (doc : Doc) (tok : Str) :
    weightedTf doc tok
      = countOccurrences (toLowerStr doc.content) tok
        + countOccurrences (toLowerStr doc.indexTitle) tok
            * (if doc.content.length = 0 then 8
               else if doc.content.length < 800 then 5 else 3)
        + countOccurrences (toLowerStr (extractHeaders doc.content)) tok * 4
        + countOccurrences (toLowerStr (extractCodeBlocks doc.content)) tok * 2
        + countOccurrences (toLowerStr (extractLinkText doc.content)) tok * 2
      ∧ countOccurrences doc.content tok
          = countOccurrences (toLowerStr doc.content) tok ∧
        countOccurrences doc.indexTitle tok
          = countOccurrences (toLowerStr doc.indexTitle) tok :=
  ⟨rfl, countOccurrences_toLower doc.content tok,
    countOccurrences_toLower doc.indexTitle tok⟩

/-- **C5 (amended).** The TF component matches the spec formula with the
document length taken as `max 1 (recorded length)` — the `|| 1` fallback —
rather than the raw recorded length; and on reachable states the stored
average is exactly the arithmetic mean of the recorded lengths. -/
theorem c5_tf_component_formula (st : IndexSearch) (doc : Doc) (tok : Str)
    (i : ℕ) (docs : List Doc) :
    tfComponent st doc tok i
      = specTfComponent (weightedTf doc tok : ℝ)
          ((max 1 (st.docLengths.getD i 0) : ℕ) : ℝ)
          (max st.avgDocLength 1) ∧
    (buildIndex docs).avgDocLength
      = ((buildIndex docs).docLengths.foldl (fun a b => a + (b : ℝ)) 0)
          / (buildIndex docs).docLengths.length := by
  constructor
  · unfold tfComponent tfDenom specTfComponent K1 Bparam effectiveDocLength
    have hn : ∀ n : ℕ, (if n = 0 then 1 else n) = max 1 n := by
      intro n
      rcases Nat.eq_zero_or_pos n with h0 | h0
      · simp [h0]
      · rw [if_neg (Nat.pos_iff_ne_zero.mp h0), Nat.max_eq_right h0]
    rw [hn]
  · exact buildIndex_avg docs

/-- Counterexample to C5 as stated: for a document whose haystack
tokenizes to nothing (content `"the"`), the recorded length is `0`; the
code's TF component is `1` (it reads `docLength = 1` through `|| 1`) while
the claimed formula, with the recorded length `0` itself, gives `20/11`. -/
theorem c5_counterexample :
    tfComponent (buildIndex [dThe]) dThe (str "the") 0 = 1 ∧
    specTfComponent ((weightedTf dThe (str "the") : ℕ) : ℝ)
        (((buildIndex [dThe]).docLengths.getD 0 0 : ℕ) : ℝ)
        (max (buildIndex [dThe]).avgDocLength 1) = 20 / 11 ∧
    (1 : ℝ) ≠ 20 / 11 := by
  have hL : (buildIndex [dThe]).docLengths = [0] := by decide
  have hW : weightedTf dThe (str "the") = 1 := by decide
  have hAvg : (buildIndex [dThe]).avgDocLength = 0 := by
    rw [buildIndex_avg, hL]
    norm_num
  refine ⟨?_, ?_, by norm_num⟩
  · unfold tfComponent tfDenom K1 Bparam effectiveDocLength
    rw [hL, hW, hAvg]
    norm_num
  · unfold specTfComponent
    rw [hW, hL, hAvg]
    norm_num

/-- **C6 (amended).** For a camel-case part, after the sub-part emissions
the stem of the original lower-cased part is additionally emitted iff it is
not a stopword and not already present among *all* tokens emitted so far in
this `tokenize` call — the `tokens.includes` test is global to the call
(including earlier parts' tokens), not scoped to the current part's own
output. -/
theorem c6_stemmed_original_fallback (tokens : List Str) (part : Str)
    (h0 : ¬ toLowerStr part = []) (h1 : toLowerStr part ∉ STOP_WORDS)
    (h2 : toLowerStr part ∉ PRESERVE_TERMS) (h3 : hasCamel part = true) :
    processPart tokens part
      = (tokens ++ camelEmit part)
        ++ (if porterStem (toLowerStr part) ∉ STOP_WORDS ∧
              porterStem (toLowerStr part) ∉ tokens ++ camelEmit part
            then [porterStem (toLowerStr part)] else []) := by
  unfold processPart
  rw [if_neg (by simp [h0, h1]), if_neg h2, if_pos h3]
  show (if porterStem (toLowerStr part) ∉ STOP_WORDS ∧
          porterStem (toLowerStr part) ∉ tokens ++ camelEmit part
        then (tokens ++ camelEmit part) ++ [porterStem (toLowerStr part)]
        else tokens ++ camelEmit part) = _
  split_ifs with h
  · rfl
  · simp

/-- Witness for C6 (amended): the part `"fooBar"` processed when
`"foobar"` was already emitted earlier in the call. -/
theorem c6_stemmed_original_fallback_witness :
    processPart [str "foobar"] (str "fooBar")
      = ([str "foobar"] ++ camelEmit (str "fooBar"))
        ++ (if porterStem (toLowerStr (str "fooBar")) ∉ STOP_WORDS ∧
              porterStem (toLowerStr (str "fooBar"))
                ∉ [str "foobar"] ++ camelEmit (str "fooBar")
            then [porterStem (toLowerStr (str "fooBar"))] else []) :=
  c6_stemmed_original_fallback [str "foobar"] (str "fooBar")
    (by decide) (by decide) (by decide) (by decide)

/-- Counterexample to C6 as stated: on `"fooBar fooBar"` the code refuses
to re-emit `"foobar"` for the second part because the *first* part already
emitted it (global dedup), while the claimed per-part scope would emit it
again. -/
theorem c6_counterexample :
    tokenize (str "fooBar fooBar")
        = [str "foo", str "bar", str "foobar", str "foo", str "bar"] ∧
    tokenizePerPartDedup (str "fooBar fooBar")
        = [str "foo", str "bar", str "foobar", str "foo", str "bar",
           str "foobar"] ∧
    ¬ tokenize (str "fooBar fooBar")
        = tokenizePerPartDedup (str "fooBar fooBar") :=
  ⟨by decide, by decide, by decide⟩

/-- **C7 (amended).** The bigram separator is `_`, and it *is* producible
by tokenization (`TOKEN_RE` admits underscores), so a bigram can coincide
with a unigram: `tokenize "foo_bar"` yields exactly the string that is the
bigram of the adjacent tokens `foo`, `bar`. -/
theorem c7_separator_producible :
    (∀ a b : Str, generateBigrams [a, b] = [a ++ '_' :: b]) ∧
    tokenize (str "foo_bar") = [str "foo" ++ '_' :: str "bar"] :=
  ⟨fun _ _ => rfl, by decide⟩

/-- Counterexample to C7 as stated: the unigram `tokenize` emits for
`"foo_bar"` contains the separator character `_`, and equals the bigram
`generateBigrams` builds from `["foo", "bar"]`. -/
theorem c7_counterexample :
    tokenize (str "foo_bar") = [str "foo_bar"] ∧
    generateBigrams [str "foo", str "bar"] = [str "foo_bar"] ∧
    '_' ∈ str "foo_bar" :=
  ⟨by decide, by decide, by decide⟩

/-- **C8.** After any sequence of `add` calls on a fresh index, each
token's document-frequency counter equals the number of documents whose
haystack token sequence (unigrams plus bigrams) contains that token at
least once. -/
theorem c8_doc_frequency_distinct (docs : List Doc) (tok : Str) :
    (buildIndex docs).docFrequency tok
      = (docs.filter fun d => tok ∈ allTokensOf d).length :=
  buildIndex_docFrequency docs tok

/-- **C9.** The ranked result list (before documents are attached) carries
pairwise-distinct document positions for every state, query and cutoff:
the accumulator is keyed by position, so no document can appear twice in
the output of `search`. -/
theorem c9_results_distinct_docs (st : IndexSearch) (q : Str) (k : ℕ) :
    (((searchRanked st q).take k).map Prod.fst).Nodup := by
  have h1 : ((searchRanked st q).map Prod.fst).Nodup := by
    have hperm : List.Perm (searchRanked st q)
        (accumScores st (queryTokens q)) := sortDesc_perm _
    exact ((hperm.map Prod.fst).nodup_iff).mpr (accumScores_keys_nodup st _)
  exact ((List.take_sublist k (searchRanked st q)).map Prod.fst).nodup h1

/-- **C10.** `search` is read-only: threading the state through the call
returns it unchanged alongside the results (the method body reads the
fields and never writes them). -/
theorem c10_search_readonly (st : IndexSearch) (q : Str) (k : ℕ) :
    (searchFull st q k).1 = st ∧ (searchFull st q k).2 = st.search q k :=
  ⟨rfl, rfl⟩

/-- **C1 (amended).** Every search returns at most `k` results, sorted by
score in non-increasing order; ties are broken stably with respect to the
score accumulator's key-insertion order (the order in which documents are
first reached while iterating the query tokens and their posting lists),
which need not be the documents' insertion-index order. -/
theorem c1_ranked_results (st : IndexSearch) (q : Str) (k : ℕ) :
    (st.search q k).length ≤ k ∧
    (st.search q k).Pairwise (fun a b => b.score ≤ a.score) ∧
    (∀ s : ℝ, (searchRanked st q).filter (fun p => p.2 = s)
      = (accumScores st (queryTokens q)).filter (fun p => p.2 = s)) := by
  refine ⟨?_, ?_, fun s => sortDesc_filter _ s⟩
  · unfold IndexSearch.search
    split
    · simp
    · rw [List.length_take]
      exact min_le_left _ _
  · unfold IndexSearch.search
    split
    · exact List.Pairwise.nil
    · exact List.Pairwise.sublist (List.take_sublist _ _)
        (List.Pairwise.map _ (fun a b hab => hab) (sortDesc_pairwise _))

/-- Counterexample to C1's tie-break clause as stated: in a two-document
index (`"foo"` added at position 0, `"bar"` at position 1), the query
`"bar foo"` gives both documents *equal* scores, yet the result lists the
position-1 document first, because `"bar"` is the first query token and
the accumulator's iteration order — not the insertion order — decides the
tie under the stable sort. -/
theorem c1_counterexample :
    ((buildIndex [dFoo, dBar]).search (str "bar foo") 8).map SearchResult.doc
        = [dBar, dFoo] ∧
    ((buildIndex [dFoo, dBar]).search (str "bar foo") 8).map SearchResult.score
        = [calculateBM25Score (buildIndex [dFoo, dBar]) dBar (str "bar") 1,
           calculateBM25Score (buildIndex [dFoo, dBar]) dBar (str "bar") 1] ∧
    ¬ dBar = dFoo := by
  have hq : queryTokens (str "bar foo")
      = [str "bar", str "foo", str "bar_foo"] := by decide
  have hb : (buildIndex [dFoo, dBar]).docIndices (str "bar") = [1] := by decide
  have hf : (buildIndex [dFoo, dBar]).docIndices (str "foo") = [0] := by decide
  have hbf : (buildIndex [dFoo, dBar]).docIndices (str "bar_foo") = [] := by
    decide
  have hd1 : (buildIndex [dFoo, dBar]).docs.getD 1 defaultDoc = dBar := by
    decide
  have hd0 : (buildIndex [dFoo, dBar]).docs.getD 0 defaultDoc = dFoo := by
    decide
  have hS : calculateBM25Score (buildIndex [dFoo, dBar]) dFoo (str "foo") 0
      = calculateBM25Score (buildIndex [dFoo, dBar]) dBar (str "bar") 1 := by
    have e1 : (buildIndex [dFoo, dBar]).docFrequency (str "bar") = 1 := by
      decide
    have e2 : (buildIndex [dFoo, dBar]).docFrequency (str "foo") = 1 := by
      decide
    have e3 : weightedTf dBar (str "bar") = 1 := by decide
    have e4 : weightedTf dFoo (str "foo") = 1 := by decide
    have e5 : effectiveDocLength (buildIndex [dFoo, dBar]) 1 = 1 := by decide
    have e6 : effectiveDocLength (buildIndex [dFoo, dBar]) 0 = 1 := by decide
    unfold calculateBM25Score idf idfArg tfComponent tfDenom
    rw [e1, e2, e3, e4, e5, e6]
  have hacc : accumScores (buildIndex [dFoo, dBar])
        (queryTokens (str "bar foo"))
      = [(1, 0 + calculateBM25Score (buildIndex [dFoo, dBar]) dBar
              (str "bar") 1),
         (0, 0 + calculateBM25Score (buildIndex [dFoo, dBar]) dFoo
              (str "foo") 0)] := by
    rw [hq]
    unfold accumScores
    simp only [List.foldl_cons, List.foldl_nil, hb, hf, hbf, hd1, hd0]
    simp [scoreSet, scoreGet]
  have hres : (buildIndex [dFoo, dBar]).search (str "bar foo") 8
      = [⟨calculateBM25Score (buildIndex [dFoo, dBar]) dBar (str "bar") 1,
          dBar⟩,
         ⟨calculateBM25Score (buildIndex [dFoo, dBar]) dBar (str "bar") 1,
          dFoo⟩] := by
    unfold IndexSearch.search
    rw [if_neg (by decide)]
    rw [searchRanked, hacc]
    unfold sortDesc
    simp only [List.foldl_cons, List.foldl_nil]
    rw [zero_add, zero_add, hS]
    simp [insertDesc]
    exact ⟨by decide, by decide⟩
  refine ⟨by rw [hres]; rfl, by rw [hres]; rfl, by decide⟩

end Indexer
